import Mathlib

/-!
Shallow embedding of `seller.py` (AlexKlos/seller-apis): the transformer
functions (`create_stocks`, `create_prices`, `price_conversion`), the batcher
(`divide`), the paginated SKU fetch loop (`get_offer_ids`), and the
orchestrator (`main`), together with theorems settling the frozen claims.

Python dict records with keys "Код" (SKU), "Количество" (quantity text) and
"Цена" (price text) are embedded as the structure `Rec` whose fields hold the
`str(...)` of the corresponding cell.  In-place mutation of the `offer_ids`
list argument (`offer_ids.remove(...)` in `create_stocks`) is embedded by
threading the list state: the embedded `create_stocks` returns both the output
stock list and the final state of the caller's `offer_ids` list.
-/

namespace Seller

/-- One spreadsheet row (`watch_remnants` element): the stringified "Код",
"Количество" and "Цена" cells. -/
structure Rec where
  kod : String
  kolichestvo : String
  tsena : String
deriving DecidableEq, Repr

/-- One element of the stock-update payload: `{"offer_id": ..., "stock": ...}`
built in `create_stocks`.  `stock` is a Python int, embedded as `Int`. -/
structure StockEntry where
  offer_id : String
  stock : Int
deriving DecidableEq, Repr

/-- One element of the price-update payload built in `create_prices`. -/
structure PriceEntry where
  auto_action_enabled : String
  currency_code : String
  offer_id : String
  old_price : String
  price : String
deriving DecidableEq, Repr

/-- Digits-only test for a character list (ASCII `0`-`9`, as in the regex
`[^0-9]` and in Python `int` on plain decimal numerals). -/
def allDigits (l : List Char) : Bool :=
  l.all Char.isDigit

/-- Decimal value of a digit list (most significant first). -/
def digitsVal (l : List Char) : Nat :=
  l.foldl (fun a c => a * 10 + (c.toNat - '0'.toNat)) 0

/-- ASCII whitespace as stripped by Python `int` around a numeral. -/
def isPySpace (c : Char) : Bool :=
  c == ' ' || c == '\t' || c == '\n' || c == '\r' || c == '\x0b' || c == '\x0c'

/-- Strip leading and trailing whitespace from a character list. -/
def stripWS (l : List Char) : List Char :=
  ((l.dropWhile isPySpace).reverse.dropWhile isPySpace).reverse

/-- Model of Python `int(s)` on a string: surrounding whitespace is ignored,
an optional single `+`/`-` sign is allowed, and the rest must be a nonempty
run of decimal digits; otherwise `int` raises `ValueError`, embedded as
`none`.  (Digit-group underscores and non-ASCII digits are not modelled.) -/
def pyInt (s : String) : Option Int :=
  match stripWS s.data with
  | [] => none
  | c :: cs =>
    if c = '+' then
      if cs ≠ [] ∧ allDigits cs then some (digitsVal cs : Int) else none
    else if c = '-' then
      if cs ≠ [] ∧ allDigits cs then some (-(digitsVal cs : Int)) else none
    else
      if allDigits (c :: cs) then some (digitsVal (c :: cs) : Int) else none

/-- The quantity-to-stock policy inside the `create_stocks` loop:
`count == ">10"` gives 100, `count == "1"` gives 0, anything else is passed to
`int(...)` (which may raise, embedded as `none`). -/
def stockOf (count : String) : Option Int :=
  if count = ">10" then some 100
  else if count = "1" then some 0
  else pyInt count

/-- The `for watch in watch_remnants:` loop of `create_stocks`: each record
whose SKU is in the current `offer_ids` list appends a stock entry and removes
(first occurrence, as Python `list.remove`) its SKU from `offer_ids`.
Returns the appended entries and the final state of `offer_ids`; `none`
embeds a `ValueError` escaping from `int(...)`. -/
def createStocksLoop : List Rec → List String → Option (List StockEntry × List String)
  | [], offer_ids => some ([], offer_ids)
  | w :: ws, offer_ids =>
    if w.kod ∈ offer_ids then
      match stockOf w.kolichestvo with
      | none => none
      | some st =>
        match createStocksLoop ws (offer_ids.erase w.kod) with
        | none => none
        | some (rest, rem) => some (⟨w.kod, st⟩ :: rest, rem)
    else createStocksLoop ws offer_ids

/-- `create_stocks(watch_remnants, offer_ids)`: runs the record loop, then
appends a zero-stock entry for every SKU still left in `offer_ids`.  The
second component of the result is the final state of the caller's
`offer_ids` list (the Python code mutates the argument in place). -/
def create_stocks (ws : List Rec) (offer_ids : List String) :
    Option (List StockEntry × List String) :=
  match createStocksLoop ws offer_ids with
  | none => none
  | some (st, rem) => some (st ++ rem.map (fun s => ⟨s, 0⟩), rem)

/-- `price_conversion(price)`: `re.sub("[^0-9]", "", price.split(".")[0])` —
keep the characters before the first `.` and drop every non-digit among
them. -/
def price_conversion (price : String) : String :=
  ⟨(price.data.takeWhile (fun c => c != '.')).filter Char.isDigit⟩

/-- `create_prices(watch_remnants, offer_ids)`: membership test only (no
removal from `offer_ids`); each matching record emits one price entry with
the fixed stub fields and the converted price. -/
def create_prices : List Rec → List String → List PriceEntry
  | [], _ => []
  | w :: ws, offer_ids =>
    if w.kod ∈ offer_ids then
      { auto_action_enabled := "UNKNOWN"
        currency_code := "RUB"
        offer_id := w.kod
        old_price := "0"
        price := price_conversion w.tsena } :: create_prices ws offer_ids
    else create_prices ws offer_ids

/-- Fuelled worker for `divide`: the fuel starts at the list length, so for a
positive chunk size it never runs out. -/
def divideFuel {α : Type _} (n : Nat) : Nat → List α → List (List α)
  | _, [] => []
  | 0, _ :: _ => []
  | fuel + 1, x :: xs => ((x :: xs).take n) :: divideFuel n fuel ((x :: xs).drop n)

/-- `divide(lst, n)`: consecutive slices `lst[i : i + n]` for
`i = 0, n, 2n, ...` (the generator materialised as a list).  Python raises
`ValueError` for `n = 0`; every theorem below assumes `0 < n`. -/
def divide {α : Type _} (lst : List α) (n : Nat) : List (List α) :=
  divideFuel n lst.length lst

theorem divideFuel_congr {α : Type _} (n : Nat) (hn : 0 < n) :
    ∀ fuel₁ fuel₂ (lst : List α), lst.length ≤ fuel₁ → lst.length ≤ fuel₂ →
      divideFuel n fuel₁ lst = divideFuel n fuel₂ lst := by
  intro fuel₁
  induction fuel₁ with
  | zero =>
    intro fuel₂ lst h₁ _
    have : lst = [] := List.eq_nil_of_length_eq_zero (Nat.le_zero.mp h₁)
    subst this
    cases fuel₂ <;> rfl
  | succ f ih =>
    intro fuel₂ lst h₁ h₂
    cases lst with
    | nil => cases fuel₂ <;> rfl
    | cons x xs =>
      cases fuel₂ with
      | zero => exact absurd h₂ (by simp)
      | succ f₂ =>
        simp only [divideFuel]
        congr 1
        have hlen : ((x :: xs).drop n).length = (x :: xs).length - n := by
          simp
        have hle : (x :: xs).length - n ≤ f := by
          have : (x :: xs).length ≤ f + 1 := h₁
          omega
        have hle₂ : (x :: xs).length - n ≤ f₂ := by
          have : (x :: xs).length ≤ f₂ + 1 := h₂
          omega
        exact ih f₂ _ (by rw [hlen]; exact hle) (by rw [hlen]; exact hle₂)

theorem divide_nil {α : Type _} (n : Nat) : divide ([] : List α) n = [] := rfl

theorem divide_cons {α : Type _} (lst : List α) (n : Nat) (hne : lst ≠ [])
    (hn : 0 < n) :
    divide lst n = lst.take n :: divide (lst.drop n) n := by
  cases lst with
  | nil => exact absurd rfl hne
  | cons x xs =>
    show divideFuel n (xs.length + 1) (x :: xs) = _
    simp only [divideFuel]
    congr 1
    apply divideFuel_congr n hn
    · simp; omega
    · exact Nat.le_refl _

/-- One product object from the `v2/product/list` items array (only the
`offer_id` field is read by the code). -/
structure Product where
  offer_id : String
deriving DecidableEq, Repr

/-- The `result` object of one `get_product_list` call: the items page, the
server-reported `total`, and the next cursor `last_id`. -/
structure ProdResp where
  items : List Product
  total : Int
  last_id : String

/-- The `while True:` loop body of `get_offer_ids`, fuelled: call the server
at the current cursor, extend the accumulated product list, stop as soon as
the reported `total` equals the accumulated length, otherwise continue at the
returned cursor.  The Python loop is unbounded; `none` means the fuel ran out
before the stop condition held. -/
def getOfferIdsAux (srv : String → ProdResp) : Nat → String → List Product → Option (List String)
  | 0, _, _ => none
  | fuel + 1, last_id, acc =>
    let r := srv last_id
    let acc' := acc ++ r.items
    if r.total = (acc'.length : Int) then some (acc'.map Product.offer_id)
    else getOfferIdsAux srv fuel r.last_id acc'

/-- `get_offer_ids`: the loop started at cursor `""` with an empty product
accumulator, abstracted over the server response function and a fuel bound. -/
def get_offer_ids (srv : String → ProdResp) (fuel : Nat) : Option (List String) :=
  getOfferIdsAux srv fuel "" []

/-- The state (cursor, accumulated products) the `get_offer_ids` loop holds
when entering its `k`-th iteration, ignoring the stop check (the unconditional
trace of the loop). -/
def traceState (srv : String → ProdResp) : Nat → String × List Product
  | 0 => ("", [])
  | k + 1 =>
    let s := traceState srv k
    ((srv s.1).last_id, s.2 ++ (srv s.1).items)

/-- The stop condition of the `get_offer_ids` loop as checked in iteration
`k`: the reported `total` equals the accumulated item count. -/
def stopAt (srv : String → ProdResp) (k : Nat) : Prop :=
  (srv (traceState srv k).1).total =
    (((traceState srv k).2 ++ (srv (traceState srv k).1).items).length : Int)

instance (srv : String → ProdResp) (k : Nat) : Decidable (stopAt srv k) := by
  unfold stopAt
  infer_instance

/-- Exception kinds that reach `main`'s handler chain:
`requests.exceptions.ReadTimeout`, `requests.exceptions.ConnectionError`
(carrying its message), and any other `Exception` (carrying its message). -/
inductive PyExc
  | readTimeout
  | connectionError (msg : String)
  | other (msg : String)
deriving DecidableEq, Repr

/-- Failure raised by `environs` when a required environment variable is
absent; it is raised before `main`'s `try:` block and escapes the process. -/
inductive EnvError
  | missingSellerToken
  | missingClientId
deriving DecidableEq, Repr

/-- Observable network side effects of one run of `main`'s `try:` body, in
the order the code issues them. -/
inductive Effect
  | fetchSkus
  | fetchRemnants
  | uploadStockBatch (batch : List StockEntry)
  | uploadPriceBatch (batch : List PriceEntry)
deriving DecidableEq, Repr

/-- Environment of one run: the result of the SKU fetch (`get_offer_ids`),
of the remnants download (`download_stock`), and the outcome of each batch
upload call (`none` = success, `some e` = raised exception). -/
structure World where
  skus : Except PyExc (List String)
  remnants : Except PyExc (List Rec)
  stockUploadOk : List StockEntry → Option PyExc
  priceUploadOk : List PriceEntry → Option PyExc

/-- The `ValueError` raised by `int(...)` on a non-numeral quantity cell,
as seen by `main`'s generic `except Exception` arm. -/
def valueError : PyExc := PyExc.other "invalid literal for int() with base 10"

/-- Runs a `for some_batch in list(divide(...)):` upload loop: each batch
issues one call effect; the first failing call aborts the loop and the raised
exception is returned. -/
def runBatches {β : Type _} (f : β → Option PyExc) (mk : β → Effect) :
    List β → List Effect × Option PyExc
  | [] => ([], none)
  | b :: bs =>
    match f b with
    | some e => ([mk b], some e)
    | none =>
      let r := runBatches f mk bs
      (mk b :: r.1, r.2)

/-- The `try:` body of `main`: fetch the SKU list (`get_offer_ids`), then
fetch the remnants (`download_stock`), compute stocks (mutating the SKU
list), upload stock batches of 100, compute prices from the mutated SKU
list, upload price batches of 900.  Returns the effects performed and the
exception (if any) that aborted the run. -/
def mainBody (w : World) : List Effect × Option PyExc :=
  match w.skus with
  | .error e => ([Effect.fetchSkus], some e)
  | .ok skus =>
    match w.remnants with
    | .error e => ([Effect.fetchSkus, Effect.fetchRemnants], some e)
    | .ok recs =>
      match create_stocks recs skus with
      | none => ([Effect.fetchSkus, Effect.fetchRemnants], some valueError)
      | some (stocks, rem) =>
        let r₁ := runBatches w.stockUploadOk Effect.uploadStockBatch (divide stocks 100)
        match r₁.2 with
        | some e => ([Effect.fetchSkus, Effect.fetchRemnants] ++ r₁.1, some e)
        | none =>
          let prices := create_prices recs rem
          let r₂ := runBatches w.priceUploadOk Effect.uploadPriceBatch (divide prices 900)
          ([Effect.fetchSkus, Effect.fetchRemnants] ++ r₁.1 ++ r₂.1, r₂.2)

/-- `main`'s handler chain applied to the body's outcome: `ReadTimeout`,
then `ConnectionError`, then the generic `Exception` arm; each prints one
line and falls through to a normal return. -/
def handle : Option PyExc → List String
  | none => []
  | some PyExc.readTimeout => ["Превышено время ожидания..."]
  | some (PyExc.connectionError m) => [m ++ " Ошибка соединения"]
  | some (PyExc.other m) => [m ++ " ERROR_2"]

/-- `main()`: reads `SELLER_TOKEN` then `CLIENT_ID` (raising `EnvError`
before the `try:` block when one is absent), then runs the body under the
handler chain; a normal return carries the performed effects and the printed
lines. -/
def main (tok cid : Option String) (w : World) :
    Except EnvError (List Effect × List String) :=
  match tok with
  | none => .error EnvError.missingSellerToken
  | some _ =>
    match cid with
    | none => .error EnvError.missingClientId
    | some _ =>
      let r := mainBody w
      .ok (r.1, handle r.2)

/-- Modelled from the spec (refinement target for the orchestration-order
claim): the full planned effect sequence of one run — fetch SKU list, fetch
remnants, all stock batches of 100, all price batches of 900 — cut short at
a fetch or transform that cannot produce data.  `mainBody`'s actual trace is
compared against this plan. -/
def mainPlannedEffects (w : World) : List Effect :=
  match w.skus with
  | .error _ => [Effect.fetchSkus]
  | .ok skus =>
    match w.remnants with
    | .error _ => [Effect.fetchSkus, Effect.fetchRemnants]
    | .ok recs =>
      match create_stocks recs skus with
      | none => [Effect.fetchSkus, Effect.fetchRemnants]
      | some (stocks, rem) =>
        [Effect.fetchSkus, Effect.fetchRemnants]
          ++ (divide stocks 100).map Effect.uploadStockBatch
          ++ (divide (create_prices recs rem) 900).map Effect.uploadPriceBatch

/-- The sequence of `update_price` payloads issued by the programmatic upload
path `upload_prices` (which fetches its own SKU list, builds prices, and
chunks them by 1000). -/
def uploadPricesCalls (ws : List Rec) (offer_ids : List String) : List (List PriceEntry) :=
  divide (create_prices ws offer_ids) 1000

theorem divide_ne_nil {α : Type _} (lst : List α) (n : Nat) (hne : lst ≠ [])
    (hn : 0 < n) : divide lst n ≠ [] := by
  rw [divide_cons lst n hne hn]
  exact List.cons_ne_nil _ _

theorem divide_flatten_aux {α : Type _} (n : Nat) (hn : 0 < n) :
    ∀ (len : Nat) (lst : List α), lst.length ≤ len → (divide lst n).flatten = lst := by
  intro len
  induction len with
  | zero =>
    intro lst h
    have : lst = [] := List.eq_nil_of_length_eq_zero (Nat.le_zero.mp h)
    subst this
    rfl
  | succ k ih =>
    intro lst h
    cases lst with
    | nil => rfl
    | cons x xs =>
      rw [divide_cons _ n (List.cons_ne_nil x xs) hn, List.flatten_cons,
        ih ((x :: xs).drop n) ?_, List.take_append_drop]
      have hd : ((x :: xs).drop n).length = (x :: xs).length - n := List.length_drop n _
      have hl : (x :: xs).length ≤ k + 1 := h
      rw [hd]
      omega

/-- The concatenation of the chunks of `divide` is the input list. -/
theorem divide_flatten {α : Type _} (lst : List α) (n : Nat) (hn : 0 < n) :
    (divide lst n).flatten = lst :=
  divide_flatten_aux n hn lst.length lst (Nat.le_refl _)

theorem divide_mem_length_aux {α : Type _} (n : Nat) (hn : 0 < n) :
    ∀ (len : Nat) (lst : List α), lst.length ≤ len →
      ∀ c ∈ divide lst n, 1 ≤ c.length ∧ c.length ≤ n := by
  intro len
  induction len with
  | zero =>
    intro lst h c hc
    have : lst = [] := List.eq_nil_of_length_eq_zero (Nat.le_zero.mp h)
    subst this
    simp [divide_nil] at hc
  | succ k ih =>
    intro lst h c hc
    cases lst with
    | nil => simp [divide_nil] at hc
    | cons x xs =>
      rw [divide_cons _ n (List.cons_ne_nil x xs) hn] at hc
      rcases List.mem_cons.mp hc with hc | hc
      · subst hc
        have ht : ((x :: xs).take n).length = min n (x :: xs).length :=
          List.length_take n _
        constructor
        · rw [ht]
          have : 0 < (x :: xs).length := by simp
          omega
        · rw [ht]; omega
      · have hd : ((x :: xs).drop n).length = (x :: xs).length - n := List.length_drop n _
        have hl : (x :: xs).length ≤ k + 1 := h
        exact ih ((x :: xs).drop n) (by rw [hd]; omega) c hc

/-- Every chunk of `divide` has between 1 and `n` elements. -/
theorem divide_mem_length {α : Type _} (lst : List α) (n : Nat) (hn : 0 < n) :
    ∀ c ∈ divide lst n, 1 ≤ c.length ∧ c.length ≤ n :=
  divide_mem_length_aux n hn lst.length lst (Nat.le_refl _)

theorem divide_dropLast_aux {α : Type _} (n : Nat) (hn : 0 < n) :
    ∀ (len : Nat) (lst : List α), lst.length ≤ len →
      ∀ c ∈ (divide lst n).dropLast, c.length = n := by
  intro len
  induction len with
  | zero =>
    intro lst h c hc
    have : lst = [] := List.eq_nil_of_length_eq_zero (Nat.le_zero.mp h)
    subst this
    simp [divide_nil] at hc
  | succ k ih =>
    intro lst h c hc
    cases lst with
    | nil => simp [divide_nil] at hc
    | cons x xs =>
      rw [divide_cons _ n (List.cons_ne_nil x xs) hn] at hc
      by_cases hrest : (x :: xs).drop n = []
      · rw [hrest, divide_nil] at hc
        simp at hc
      · have hne : divide ((x :: xs).drop n) n ≠ [] :=
          divide_ne_nil _ n hrest hn
        rw [List.dropLast_cons_of_ne_nil hne] at hc
        rcases List.mem_cons.mp hc with hc | hc
        · subst hc
          have hlen : n < (x :: xs).length := by
            have hd : ((x :: xs).drop n).length = (x :: xs).length - n :=
              List.length_drop n _
            by_contra hcon
            apply hrest
            apply List.eq_nil_of_length_eq_zero
            omega
          rw [List.length_take]
          omega
        · have hd : ((x :: xs).drop n).length = (x :: xs).length - n := List.length_drop n _
          have hl : (x :: xs).length ≤ k + 1 := h
          exact ih ((x :: xs).drop n) (by rw [hd]; omega) c hc

/-- Every chunk of `divide` except possibly the last has exactly `n`
elements. -/
theorem divide_dropLast {α : Type _} (lst : List α) (n : Nat) (hn : 0 < n) :
    ∀ c ∈ (divide lst n).dropLast, c.length = n :=
  divide_dropLast_aux n hn lst.length lst (Nat.le_refl _)

/-- `price_conversion` leaves a pure digit string unchanged. -/
theorem price_conversion_digits (s : String)
    (h : s.data.all Char.isDigit = true) : price_conversion s = s := by
  obtain ⟨l⟩ := s
  have hall : ∀ c ∈ l, Char.isDigit c = true := by
    intro c hc
    exact List.all_eq_true.mp h c hc
  have h1 : l.takeWhile (fun c => c != '.') = l := by
    apply List.takeWhile_eq_self_iff.mpr
    intro c hc
    have hd := hall c hc
    have : c ≠ '.' := by
      intro he
      subst he
      simp [Char.isDigit] at hd
    simpa using this
  have h2 : l.filter Char.isDigit = l := List.filter_eq_self.mpr hall
  show String.mk ((l.takeWhile (fun c => c != '.')).filter Char.isDigit) = String.mk l
  rw [h1, h2]

/-- The record loop only removes elements from `offer_ids`: the final list
state is a sublist (subsequence) of the initial one. -/
theorem csl_rem_sublist :
    ∀ (ws : List Rec) (skus : List String) (st : List StockEntry) (rem : List String),
      createStocksLoop ws skus = some (st, rem) → List.Sublist rem skus := by
  intro ws
  induction ws with
  | nil =>
    intro skus st rem h
    simp only [createStocksLoop, Option.some.injEq, Prod.mk.injEq] at h
    obtain ⟨h1, h2⟩ := h
    subst h2
    exact List.Sublist.refl _
  | cons w ws ih =>
    intro skus st rem h
    simp only [createStocksLoop] at h
    split at h
    case isTrue hm =>
      split at h
      case h_1 => exact absurd h (by simp)
      case h_2 v hst =>
        split at h
        case h_1 => exact absurd h (by simp)
        case h_2 rest rem' hrec =>
          simp only [Option.some.injEq, Prod.mk.injEq] at h
          rw [← h.2]
          exact (ih _ _ _ hrec).trans (List.erase_sublist _ _)
    case isFalse hm => exact ih _ _ _ h

/-- The final `offer_ids` state of the record loop: each record in order
whose SKU is in the current list erases the first occurrence of that SKU. -/
theorem csl_rem_fold :
    ∀ (ws : List Rec) (skus : List String) (st : List StockEntry) (rem : List String),
      createStocksLoop ws skus = some (st, rem) →
        rem = ws.foldl (fun cur w => if w.kod ∈ cur then cur.erase w.kod else cur) skus := by
  intro ws
  induction ws with
  | nil =>
    intro skus st rem h
    simp only [createStocksLoop, Option.some.injEq, Prod.mk.injEq] at h
    obtain ⟨h1, h2⟩ := h
    subst h2
    rfl
  | cons w ws ih =>
    intro skus st rem h
    simp only [createStocksLoop] at h
    split at h
    case isTrue hm =>
      split at h
      case h_1 => exact absurd h (by simp)
      case h_2 v hst =>
        split at h
        case h_1 => exact absurd h (by simp)
        case h_2 rest rem' hrec =>
          simp only [Option.some.injEq, Prod.mk.injEq] at h
          rw [← h.2, List.foldl_cons, if_pos hm]
          exact ih _ _ _ hrec
    case isFalse hm =>
      rw [List.foldl_cons, if_neg hm]
      exact ih _ _ _ h

/-- Each record removes at most one SKU from the list, so the list shrinks
by at most the number of records. -/
theorem csl_rem_length :
    ∀ (ws : List Rec) (skus : List String) (st : List StockEntry) (rem : List String),
      createStocksLoop ws skus = some (st, rem) →
        skus.length ≤ rem.length + ws.length := by
  intro ws
  induction ws with
  | nil =>
    intro skus st rem h
    simp only [createStocksLoop, Option.some.injEq, Prod.mk.injEq] at h
    obtain ⟨h1, h2⟩ := h
    subst h2
    simp
  | cons w ws ih =>
    intro skus st rem h
    simp only [createStocksLoop] at h
    split at h
    case isTrue hm =>
      split at h
      case h_1 => exact absurd h (by simp)
      case h_2 v hst =>
        split at h
        case h_1 => exact absurd h (by simp)
        case h_2 rest rem' hrec =>
          simp only [Option.some.injEq, Prod.mk.injEq] at h
          have hb := ih _ _ _ hrec
          have he : (skus.erase w.kod).length = skus.length - 1 :=
            List.length_erase_of_mem hm
          have hp : 0 < skus.length := List.length_pos.mpr (List.ne_nil_of_mem hm)
          rw [← h.2]
          simp only [List.length_cons]
          omega
    case isFalse hm =>
      have hb := ih _ _ _ h
      simp only [List.length_cons]
      omega

/-- The SKUs of the loop's stock entries plus the surviving SKUs are a
permutation of the initial `offer_ids` list. -/
theorem csl_perm :
    ∀ (ws : List Rec) (skus : List String) (st : List StockEntry) (rem : List String),
      createStocksLoop ws skus = some (st, rem) →
        List.Perm (st.map StockEntry.offer_id ++ rem) skus := by
  intro ws
  induction ws with
  | nil =>
    intro skus st rem h
    simp only [createStocksLoop, Option.some.injEq, Prod.mk.injEq] at h
    obtain ⟨h1, h2⟩ := h
    subst h1
    subst h2
    simp only [List.map_nil, List.nil_append]
    exact List.Perm.refl _
  | cons w ws ih =>
    intro skus st rem h
    simp only [createStocksLoop] at h
    split at h
    case isTrue hm =>
      split at h
      case h_1 => exact absurd h (by simp)
      case h_2 v hst =>
        split at h
        case h_1 => exact absurd h (by simp)
        case h_2 rest rem' hrec =>
          simp only [Option.some.injEq, Prod.mk.injEq] at h
          rw [← h.1, ← h.2]
          simp only [List.map_cons, List.cons_append]
          exact ((ih _ _ _ hrec).cons w.kod).trans (List.perm_cons_erase hm).symm
    case isFalse hm => exact ih _ _ _ h

/-- With a duplicate-free `offer_ids` list, no record's SKU survives the
loop: every record either found its SKU already removed or removed it. -/
theorem csl_not_mem_rem :
    ∀ (ws : List Rec) (skus : List String) (st : List StockEntry) (rem : List String),
      skus.Nodup → createStocksLoop ws skus = some (st, rem) →
        ∀ w' ∈ ws, w'.kod ∉ rem := by
  intro ws
  induction ws with
  | nil =>
    intro skus st rem _ _ w' hw'
    exact absurd hw' (List.not_mem_nil w')
  | cons w ws ih =>
    intro skus st rem hnd h
    simp only [createStocksLoop] at h
    split at h
    case isTrue hm =>
      split at h
      case h_1 => exact absurd h (by simp)
      case h_2 v hst =>
        split at h
        case h_1 => exact absurd h (by simp)
        case h_2 rest rem' hrec =>
          simp only [Option.some.injEq, Prod.mk.injEq] at h
          intro w' hw'
          rw [← h.2]
          rcases List.mem_cons.mp hw' with hw' | hw'
          · subst hw'
            intro hmem
            have hsub : List.Sublist rem' (skus.erase w'.kod) :=
              csl_rem_sublist ws _ _ _ hrec
            have : w'.kod ∈ skus.erase w'.kod := hsub.mem hmem
            exact absurd (((hnd.mem_erase_iff).mp this).1) (by simp)
          · exact ih _ _ _ (hnd.erase w.kod) hrec w' hw'
    case isFalse hm =>
      intro w' hw'
      rcases List.mem_cons.mp hw' with hw' | hw'
      · subst hw'
        intro hmem
        exact hm ((csl_rem_sublist ws _ _ _ h).mem hmem)
      · exact ih _ _ _ hnd h w' hw'

/-- A SKU that no record carries survives the loop. -/
theorem csl_mem_rem_of_unmatched :
    ∀ (ws : List Rec) (skus : List String) (st : List StockEntry) (rem : List String)
      (s : String), s ∈ skus → (∀ w' ∈ ws, w'.kod ≠ s) →
      createStocksLoop ws skus = some (st, rem) → s ∈ rem := by
  intro ws
  induction ws with
  | nil =>
    intro skus st rem s hs _ h
    simp only [createStocksLoop, Option.some.injEq, Prod.mk.injEq] at h
    obtain ⟨h1, h2⟩ := h
    subst h2
    exact hs
  | cons w ws ih =>
    intro skus st rem s hs hne h
    simp only [createStocksLoop] at h
    split at h
    case isTrue hm =>
      split at h
      case h_1 => exact absurd h (by simp)
      case h_2 v hst =>
        split at h
        case h_1 => exact absurd h (by simp)
        case h_2 rest rem' hrec =>
          simp only [Option.some.injEq, Prod.mk.injEq] at h
          rw [← h.2]
          have hsk : s ∈ skus.erase w.kod :=
            (List.mem_erase_of_ne (fun he => hne w (List.mem_cons_self w ws) he.symm)).mpr hs
          exact ih _ _ _ s hsk (fun w' hw' => hne w' (List.mem_cons_of_mem w hw')) hrec
    case isFalse hm =>
      exact ih _ _ _ s hs (fun w' hw' => hne w' (List.mem_cons_of_mem w hw')) h

/-- Every stock entry the loop appends comes from a record, and its stock is
the policy value of that record's quantity text. -/
theorem csl_entry_sound :
    ∀ (ws : List Rec) (skus : List String) (st : List StockEntry) (rem : List String),
      createStocksLoop ws skus = some (st, rem) →
      ∀ e ∈ st, ∃ w' ∈ ws, e.offer_id = w'.kod ∧ stockOf w'.kolichestvo = some e.stock := by
  intro ws
  induction ws with
  | nil =>
    intro skus st rem h e he
    simp only [createStocksLoop, Option.some.injEq, Prod.mk.injEq] at h
    obtain ⟨h1, h2⟩ := h
    rw [← h1] at he
    exact absurd he (List.not_mem_nil e)
  | cons w ws ih =>
    intro skus st rem h e he
    simp only [createStocksLoop] at h
    split at h
    case isTrue hm =>
      split at h
      case h_1 => exact absurd h (by simp)
      case h_2 v hst =>
        split at h
        case h_1 => exact absurd h (by simp)
        case h_2 rest rem' hrec =>
          simp only [Option.some.injEq, Prod.mk.injEq] at h
          rw [← h.1] at he
          rcases List.mem_cons.mp he with he | he
          · subst he
            exact ⟨w, List.mem_cons_self w ws, rfl, hst⟩
          · obtain ⟨w', hw', hcond⟩ := ih _ _ _ hrec e he
            exact ⟨w', List.mem_cons_of_mem w hw', hcond⟩
    case isFalse hm =>
      obtain ⟨w', hw', hcond⟩ := ih _ _ _ h e he
      exact ⟨w', List.mem_cons_of_mem w hw', hcond⟩

/-- The loop's entries keep the records' input order: their SKU sequence is a
subsequence of the records' SKU sequence. -/
theorem csl_offer_sublist :
    ∀ (ws : List Rec) (skus : List String) (st : List StockEntry) (rem : List String),
      createStocksLoop ws skus = some (st, rem) →
      List.Sublist (st.map StockEntry.offer_id) (ws.map Rec.kod) := by
  intro ws
  induction ws with
  | nil =>
    intro skus st rem h
    simp only [createStocksLoop, Option.some.injEq, Prod.mk.injEq] at h
    obtain ⟨h1, h2⟩ := h
    rw [← h1]
    simp
  | cons w ws ih =>
    intro skus st rem h
    simp only [createStocksLoop] at h
    split at h
    case isTrue hm =>
      split at h
      case h_1 => exact absurd h (by simp)
      case h_2 v hst =>
        split at h
        case h_1 => exact absurd h (by simp)
        case h_2 rest rem' hrec =>
          simp only [Option.some.injEq, Prod.mk.injEq] at h
          rw [← h.1]
          simp only [List.map_cons]
          exact List.cons_sublist_cons.mpr (ih _ _ _ hrec)
    case isFalse hm =>
      simp only [List.map_cons]
      exact (ih _ _ _ h).cons w.kod

/-- `create_stocks` characterised through its loop: the result decomposes
into the loop's entries followed by zero-stock entries for the surviving
SKUs. -/
theorem create_stocks_eq :
    ∀ (ws : List Rec) (skus : List String) (out : List StockEntry) (rem : List String),
      create_stocks ws skus = some (out, rem) →
      ∃ st, createStocksLoop ws skus = some (st, rem) ∧
        out = st ++ rem.map (fun s => ⟨s, 0⟩) := by
  intro ws skus out rem h
  unfold create_stocks at h
  split at h
  case h_1 => exact absurd h (by simp)
  case h_2 st' rem' hrec =>
    simp only [Option.some.injEq, Prod.mk.injEq] at h
    obtain ⟨h1, h2⟩ := h
    subst h2
    exact ⟨st', hrec, h1.symm⟩

/-- `create_prices` is the filter of the matching records mapped to the fixed
payload shape. -/
theorem create_prices_eq :
    ∀ (ws : List Rec) (skus : List String),
      create_prices ws skus =
        (ws.filter (fun w => decide (w.kod ∈ skus))).map
          (fun w => ⟨"UNKNOWN", "RUB", w.kod, "0", price_conversion w.tsena⟩) := by
  intro ws
  induction ws with
  | nil => intro skus; rfl
  | cons w ws ih =>
    intro skus
    simp only [create_prices, List.filter_cons]
    by_cases hm : w.kod ∈ skus
    · rw [if_pos hm]
      simp only [decide_eq_true hm, List.map_cons, ite_true]
      rw [ih skus]
    · rw [if_neg hm]
      simp only [decide_eq_false hm, ite_false]
      exact ih skus

/-- If no record's SKU is in `offer_ids`, `create_prices` emits nothing. -/
theorem create_prices_nil :
    ∀ (ws : List Rec) (skus : List String),
      (∀ w ∈ ws, w.kod ∉ skus) → create_prices ws skus = [] := by
  intro ws
  induction ws with
  | nil => intro skus _; rfl
  | cons w ws ih =>
    intro skus h
    simp only [create_prices]
    rw [if_neg (h w (List.mem_cons_self w ws))]
    exact ih skus (fun w' hw' => h w' (List.mem_cons_of_mem w hw'))

/-- Every emitted price entry carries the stub fields and the converted price
of a matching record. -/
theorem create_prices_mem :
    ∀ (ws : List Rec) (skus : List String) (e : PriceEntry),
      e ∈ create_prices ws skus →
      e.old_price = "0" ∧ e.currency_code = "RUB" ∧ e.auto_action_enabled = "UNKNOWN" ∧
        ∃ w ∈ ws, w.kod ∈ skus ∧ e.offer_id = w.kod ∧ e.price = price_conversion w.tsena := by
  intro ws
  induction ws with
  | nil =>
    intro skus e he
    exact absurd he (List.not_mem_nil e)
  | cons w ws ih =>
    intro skus e he
    simp only [create_prices] at he
    by_cases hm : w.kod ∈ skus
    · rw [if_pos hm] at he
      rcases List.mem_cons.mp he with he | he
      · subst he
        exact ⟨rfl, rfl, rfl, w, List.mem_cons_self w ws, hm, rfl, rfl⟩
      · obtain ⟨h1, h2, h3, w', hw', hrest⟩ := ih skus e he
        exact ⟨h1, h2, h3, w', List.mem_cons_of_mem w hw', hrest⟩
    · rw [if_neg hm] at he
      obtain ⟨h1, h2, h3, w', hw', hrest⟩ := ih skus e he
      exact ⟨h1, h2, h3, w', List.mem_cons_of_mem w hw', hrest⟩

/-- When no upload call fails, the batch loop issues exactly one call per
batch, in order. -/
theorem runBatches_ok {β : Type _} (f : β → Option PyExc) (mk : β → Effect) :
    ∀ bs : List β, (runBatches f mk bs).2 = none → (runBatches f mk bs).1 = bs.map mk := by
  intro bs
  induction bs with
  | nil => intro _; rfl
  | cons b bs ih =>
    intro h
    cases hf : f b with
    | some e =>
      simp only [runBatches, hf] at h
      exact absurd h (by simp)
    | none =>
      simp only [runBatches, hf] at h ⊢
      rw [List.map_cons, ih h]

/-- The calls the batch loop actually issued form a prefix of the planned
call sequence (it aborts at the first failure). -/
theorem runBatches_prefix {β : Type _} (f : β → Option PyExc) (mk : β → Effect) :
    ∀ bs : List β, ∃ t, (runBatches f mk bs).1 ++ t = bs.map mk := by
  intro bs
  induction bs with
  | nil => exact ⟨[], rfl⟩
  | cons b bs ih =>
    cases hf : f b with
    | some e =>
      refine ⟨bs.map mk, ?_⟩
      simp only [runBatches, hf, List.map_cons, List.cons_append, List.nil_append]
    | none =>
      obtain ⟨t, ht⟩ := ih
      refine ⟨t, ?_⟩
      simp only [runBatches, hf, List.map_cons, List.cons_append, ht]

/-- Every effect the batch loop issues is a call on one of the planned
batches. -/
theorem runBatches_mem {β : Type _} (f : β → Option PyExc) (mk : β → Effect) :
    ∀ (bs : List β) (e : Effect), e ∈ (runBatches f mk bs).1 → ∃ b ∈ bs, e = mk b := by
  intro bs
  induction bs with
  | nil =>
    intro e he
    exact absurd he (List.not_mem_nil e)
  | cons b bs ih =>
    intro e he
    cases hf : f b with
    | some ex =>
      simp only [runBatches, hf] at he
      rcases List.mem_cons.mp he with he | he
      · exact ⟨b, List.mem_cons_self b bs, he⟩
      · exact absurd he (List.not_mem_nil e)
    | none =>
      simp only [runBatches, hf] at he
      rcases List.mem_cons.mp he with he | he
      · exact ⟨b, List.mem_cons_self b bs, he⟩
      · obtain ⟨b', hb', he'⟩ := ih e he
        exact ⟨b', List.mem_cons_of_mem b hb', he'⟩

/-- Fuel does not matter for `get_offer_ids` once the loop stops: entering
iteration `k + 1` is the same as entering iteration `k` one response later. -/
theorem traceState_succ (srv : String → ProdResp) (k : Nat) :
    traceState srv (k + 1) =
      ((srv (traceState srv k).1).last_id,
        (traceState srv k).2 ++ (srv (traceState srv k).1).items) := rfl

/-- If the stop condition never holds along the loop's trace, the loop runs
out of any finite fuel: the Python `while True:` never exits. -/
theorem getOfferIds_none_of_no_stop (srv : String → ProdResp)
    (h : ∀ k, ¬ stopAt srv k) :
    ∀ fuel k, getOfferIdsAux srv fuel (traceState srv k).1 (traceState srv k).2 = none := by
  intro fuel
  induction fuel with
  | zero => intro k; rfl
  | succ f ih =>
    intro k
    simp only [getOfferIdsAux]
    have hk := h k
    simp only [stopAt] at hk
    rw [if_neg hk]
    exact ih (k + 1)

/-- If the loop returns, the stop condition held at some iteration, and the
result is the accumulated SKUs at the first such iteration. -/
theorem getOfferIds_stop_of_some (srv : String → ProdResp) :
    ∀ (fuel k : Nat) (out : List String),
      getOfferIdsAux srv fuel (traceState srv k).1 (traceState srv k).2 = some out →
      ∃ j, stopAt srv j ∧
        out = ((traceState srv j).2 ++ (srv (traceState srv j).1).items).map Product.offer_id := by
  intro fuel
  induction fuel with
  | zero =>
    intro k out h
    exact absurd h (by simp [getOfferIdsAux])
  | succ f ih =>
    intro k out h
    simp only [getOfferIdsAux] at h
    by_cases hk : stopAt srv k
    · have hk' := hk
      simp only [stopAt] at hk'
      rw [if_pos hk'] at h
      simp only [Option.some.injEq] at h
      exact ⟨k, hk, h.symm⟩
    · have hk' := hk
      simp only [stopAt] at hk'
      rw [if_neg hk'] at h
      exact ih (k + 1) out h

/-- If the stop condition holds at iteration `k + m`, fuel `m + 1` suffices
from iteration `k` on. -/
theorem getOfferIds_some_of_stop (srv : String → ProdResp) :
    ∀ (m k : Nat), stopAt srv (k + m) →
      ∃ out, getOfferIdsAux srv (m + 1) (traceState srv k).1 (traceState srv k).2 = some out := by
  intro m
  induction m with
  | zero =>
    intro k h
    simp only [Nat.add_zero, stopAt] at h
    refine ⟨((traceState srv k).2 ++ (srv (traceState srv k).1).items).map Product.offer_id, ?_⟩
    simp only [getOfferIdsAux]
    rw [if_pos h]
  | succ m ih =>
    intro k h
    by_cases hk : stopAt srv k
    · have hk' := hk
      simp only [stopAt] at hk'
      refine ⟨((traceState srv k).2 ++ (srv (traceState srv k).1).items).map Product.offer_id, ?_⟩
      simp only [getOfferIdsAux]
      rw [if_pos hk']
    · have h' : stopAt srv ((k + 1) + m) := by
        have heq : (k + 1) + m = k + (m + 1) := by omega
        rw [heq]
        exact h
      obtain ⟨out, hout⟩ := ih (k + 1) h'
      have hk' := hk
      simp only [stopAt] at hk'
      refine ⟨out, ?_⟩
      simp only [getOfferIdsAux]
      rw [if_neg hk']
      exact hout

/-- The key consequence of `create_stocks` mutating `offer_ids`: with a
duplicate-free SKU list, every record's SKU has been removed, so
`create_prices` over the surviving list emits nothing. -/
theorem prices_empty_of_nodup (ws : List Rec) (skus : List String)
    (out : List StockEntry) (rem : List String) (hnd : skus.Nodup)
    (h : create_stocks ws skus = some (out, rem)) :
    create_prices ws rem = [] := by
  obtain ⟨st, hloop, -⟩ := create_stocks_eq ws skus out rem h
  exact create_prices_nil ws rem (csl_not_mem_rem ws skus st rem hnd hloop)

/-- The effects `mainBody` performs form a prefix of the planned effect
sequence: an exception aborts all remaining steps but reorders nothing. -/
theorem mainBody_trace_isPre (w : World) :
    ∃ t, (mainBody w).1 ++ t = mainPlannedEffects w := by
  obtain ⟨sk, rm, su, pu⟩ := w
  cases sk with
  | error e => exact ⟨[], rfl⟩
  | ok skus =>
    cases rm with
    | error e => exact ⟨[], rfl⟩
    | ok recs =>
      cases hcs : create_stocks recs skus with
      | none =>
        refine ⟨[], ?_⟩
        simp only [mainBody, mainPlannedEffects, hcs, List.append_nil]
      | some p =>
        obtain ⟨stocks, rem⟩ := p
        simp only [mainBody, mainPlannedEffects, hcs]
        cases hr1 : (runBatches su Effect.uploadStockBatch (divide stocks 100)).2 with
        | some e =>
          simp only [hr1]
          obtain ⟨t₀, ht₀⟩ :=
            runBatches_prefix su Effect.uploadStockBatch (divide stocks 100)
          refine ⟨t₀ ++ (divide (create_prices recs rem) 900).map Effect.uploadPriceBatch, ?_⟩
          simp only [List.append_assoc, List.cons_append, List.nil_append]
          rw [← List.append_assoc (runBatches su Effect.uploadStockBatch (divide stocks 100)).1,
            ht₀]
        | none =>
          simp only [hr1]
          have h1 := runBatches_ok su Effect.uploadStockBatch (divide stocks 100) hr1
          obtain ⟨t₂, ht₂⟩ :=
            runBatches_prefix pu Effect.uploadPriceBatch (divide (create_prices recs rem) 900)
          refine ⟨t₂, ?_⟩
          rw [h1]
          simp only [List.append_assoc, List.cons_append, List.nil_append, ht₂]

/-- When the body finishes without an exception, the performed effects are
exactly the planned sequence. -/
theorem mainBody_trace_of_ok (w : World) (h : (mainBody w).2 = none) :
    (mainBody w).1 = mainPlannedEffects w := by
  obtain ⟨sk, rm, su, pu⟩ := w
  cases sk with
  | error e => exact absurd h (by simp [mainBody])
  | ok skus =>
    cases rm with
    | error e => exact absurd h (by simp [mainBody])
    | ok recs =>
      cases hcs : create_stocks recs skus with
      | none =>
        rw [show mainBody ⟨.ok skus, .ok recs, su, pu⟩
            = ([Effect.fetchSkus, Effect.fetchRemnants], some valueError) by
          simp only [mainBody, hcs]] at h
        exact absurd h (by simp)
      | some p =>
        obtain ⟨stocks, rem⟩ := p
        simp only [mainBody, hcs] at h ⊢
        cases hr1 : (runBatches su Effect.uploadStockBatch (divide stocks 100)).2 with
        | some e =>
          rw [hr1] at h
          simp at h
        | none =>
          rw [hr1] at h
          simp only at h
          have h1 := runBatches_ok su Effect.uploadStockBatch (divide stocks 100) hr1
          have h2 := runBatches_ok pu Effect.uploadPriceBatch
            (divide (create_prices recs rem) 900) h
          simp only [mainPlannedEffects, hcs, hr1, h1, h2]

/-- Every stock batch uploaded by `mainBody` has at most 100 entries. -/
theorem mainBody_stock_le (w : World) (b : List StockEntry)
    (hb : Effect.uploadStockBatch b ∈ (mainBody w).1) : b.length ≤ 100 := by
  obtain ⟨sk, rm, su, pu⟩ := w
  cases sk with
  | error e => simp [mainBody] at hb
  | ok skus =>
    cases rm with
    | error e => simp [mainBody] at hb
    | ok recs =>
      cases hcs : create_stocks recs skus with
      | none =>
        simp only [mainBody, hcs] at hb
        simp at hb
      | some p =>
        obtain ⟨stocks, rem⟩ := p
        simp only [mainBody, hcs] at hb
        have hcases : Effect.uploadStockBatch b
              ∈ (runBatches su Effect.uploadStockBatch (divide stocks 100)).1 := by
          cases hr1 : (runBatches su Effect.uploadStockBatch (divide stocks 100)).2 with
          | some e =>
            rw [hr1] at hb
            simp only [List.cons_append, List.nil_append, List.mem_cons] at hb
            rcases hb with hb | hb | hb
            · exact absurd hb (by simp)
            · exact absurd hb (by simp)
            · exact hb
          | none =>
            rw [hr1] at hb
            simp only [List.append_assoc, List.cons_append, List.nil_append,
              List.mem_cons, List.mem_append] at hb
            rcases hb with hb | hb | hb | hb
            · exact absurd hb (by simp)
            · exact absurd hb (by simp)
            · exact hb
            · obtain ⟨b', hb', heq⟩ := runBatches_mem pu Effect.uploadPriceBatch _ _ hb
              exact absurd heq (by simp)
        obtain ⟨b', hb', heq⟩ := runBatches_mem su Effect.uploadStockBatch _ _ hcases
        have : b = b' := by injection heq
        subst this
        exact (divide_mem_length stocks 100 (by omega) b hb').2

/-- Every price batch uploaded by `mainBody` has at most 900 entries. -/
theorem mainBody_price_le (w : World) (b : List PriceEntry)
    (hb : Effect.uploadPriceBatch b ∈ (mainBody w).1) : b.length ≤ 900 := by
  obtain ⟨sk, rm, su, pu⟩ := w
  cases sk with
  | error e => simp [mainBody] at hb
  | ok skus =>
    cases rm with
    | error e => simp [mainBody] at hb
    | ok recs =>
      cases hcs : create_stocks recs skus with
      | none =>
        simp only [mainBody, hcs] at hb
        simp at hb
      | some p =>
        obtain ⟨stocks, rem⟩ := p
        simp only [mainBody, hcs] at hb
        have hcases : Effect.uploadPriceBatch b
              ∈ (runBatches pu Effect.uploadPriceBatch
                  (divide (create_prices recs rem) 900)).1 := by
          cases hr1 : (runBatches su Effect.uploadStockBatch (divide stocks 100)).2 with
          | some e =>
            rw [hr1] at hb
            simp only [List.cons_append, List.nil_append, List.mem_cons] at hb
            rcases hb with hb | hb | hb
            · exact absurd hb (by simp)
            · exact absurd hb (by simp)
            · obtain ⟨b', hb', heq⟩ := runBatches_mem su Effect.uploadStockBatch _ _ hb
              exact absurd heq (by simp)
          | none =>
            rw [hr1] at hb
            simp only [List.append_assoc, List.cons_append, List.nil_append,
              List.mem_cons, List.mem_append] at hb
            rcases hb with hb | hb | hb | hb
            · exact absurd hb (by simp)
            · exact absurd hb (by simp)
            · obtain ⟨b', hb', heq⟩ := runBatches_mem su Effect.uploadStockBatch _ _ hb
              exact absurd heq (by simp)
            · exact hb
        obtain ⟨b', hb', heq⟩ := runBatches_mem pu Effect.uploadPriceBatch _ _ hcases
        have : b = b' := by injection heq
        subst this
        exact (divide_mem_length (create_prices recs rem) 900 (by omega) b hb').2

/-- With a duplicate-free fetched SKU list, no price-upload call is ever
issued by the body: `create_prices` receives the mutated list. -/
theorem mainBody_no_price_upload (w : World) (skus : List String)
    (hsk : w.skus = Except.ok skus) (hnd : skus.Nodup) (b : List PriceEntry) :
    Effect.uploadPriceBatch b ∉ (mainBody w).1 := by
  obtain ⟨sk, rm, su, pu⟩ := w
  simp only at hsk
  subst hsk
  cases rm with
  | error e => simp [mainBody]
  | ok recs =>
    cases hcs : create_stocks recs skus with
    | none =>
      simp only [mainBody, hcs]
      simp
    | some p =>
      obtain ⟨stocks, rem⟩ := p
      simp only [mainBody, hcs]
      have hpr : create_prices recs rem = [] :=
        prices_empty_of_nodup recs skus stocks rem hnd hcs
      cases hr1 : (runBatches su Effect.uploadStockBatch (divide stocks 100)).2 with
      | some e =>
        intro hb
        simp only [List.cons_append, List.nil_append, List.mem_cons] at hb
        rcases hb with hb | hb | hb
        · exact absurd hb (by simp)
        · exact absurd hb (by simp)
        · obtain ⟨b', hb', heq⟩ := runBatches_mem su Effect.uploadStockBatch _ _ hb
          exact absurd heq (by simp)
      | none =>
        intro hb
        rw [hpr] at hb
        simp only [divide_nil] at hb
        simp only [List.append_assoc, List.cons_append, List.nil_append,
          List.mem_cons, List.mem_append] at hb
        rcases hb with hb | hb | hb | hb
        · exact absurd hb (by simp)
        · exact absurd hb (by simp)
        · obtain ⟨b', hb', heq⟩ := runBatches_mem su Effect.uploadStockBatch _ _ hb
          exact absurd heq (by simp)
        · exact absurd hb (by simp [runBatches])

/-- C1: in the orchestrated run the same SKU list object is passed to
`create_stocks` and then to `create_prices`; since `create_stocks` removes
every matched SKU from that list, whenever the fetched SKU list is
duplicate-free, `create_prices` returns the empty list and the price-upload
phase issues zero price-update calls, regardless of the records' price
fields. -/
theorem claim_C1 :
    (∀ (ws : List Rec) (skus : List String) (out : List StockEntry) (rem : List String),
        skus.Nodup → create_stocks ws skus = some (out, rem) →
        create_prices ws rem = []) ∧
    (∀ (w : World) (skus : List String), w.skus = Except.ok skus → skus.Nodup →
        ∀ b : List PriceEntry, Effect.uploadPriceBatch b ∉ (mainBody w).1) :=
  ⟨fun ws skus out rem hnd h => prices_empty_of_nodup ws skus out rem hnd h,
   fun w skus hsk hnd b => mainBody_no_price_upload w skus hsk hnd b⟩

/-- Witness for C1 at a concrete run. -/
theorem claim_C1_witness :
    create_prices [⟨"123", ">10", "5000.00"⟩] ["124"] = [] ∧
    Effect.uploadPriceBatch [] ∉
      (mainBody ⟨Except.ok ["123"], Except.ok [⟨"123", ">10", "5000.00"⟩],
        fun _ => none, fun _ => none⟩).1 :=
  ⟨claim_C1.1 [⟨"123", ">10", "5000.00"⟩] ["123", "124"]
      [⟨"123", 100⟩, ⟨"124", 0⟩] ["124"] (by decide) (by decide),
   claim_C1.2 _ ["123"] rfl (by decide) []⟩

/-- C2 counterexample: the removal is observable through the argument — here
the caller's `offer_ids` list ends as `[]`, not the original `["123"]`
(the Python code calls `offer_ids.remove(...)` on the argument itself, not on
a working copy). -/
theorem claim_C2_cex :
    create_stocks [⟨"123", ">10", ""⟩] ["123"] = some ([⟨"123", 100⟩], []) ∧
    ([] : List String) ≠ ["123"] := by decide

/-- C2 as amended: `create_stocks` removes matched SKUs from the caller's
`skuList` itself (observably); the final list state is obtained by erasing,
for each record in order whose SKU is present, the first occurrence of that
SKU — so each record consumes at most one SKU and first match wins on
duplicates, and the list shrinks by at most one element per record. -/
theorem claim_C2 :
    ∀ (ws : List Rec) (skus : List String) (out : List StockEntry) (rem : List String),
      create_stocks ws skus = some (out, rem) →
      rem = ws.foldl (fun cur w => if w.kod ∈ cur then cur.erase w.kod else cur) skus ∧
      List.Sublist rem skus ∧
      skus.length ≤ rem.length + ws.length := by
  intro ws skus out rem h
  obtain ⟨st, hloop, -⟩ := create_stocks_eq ws skus out rem h
  exact ⟨csl_rem_fold ws skus st rem hloop, csl_rem_sublist ws skus st rem hloop,
    csl_rem_length ws skus st rem hloop⟩

/-- Witness for the amended C2 at a concrete call. -/
theorem claim_C2_witness :
    ["B"] = [Rec.mk "A" "1" "x"].foldl
        (fun cur w => if w.kod ∈ cur then cur.erase w.kod else cur) ["A", "B"] ∧
    List.Sublist ["B"] ["A", "B"] ∧
    (["A", "B"] : List String).length ≤ (["B"] : List String).length
      + ([Rec.mk "A" "1" "x"] : List Rec).length :=
  claim_C2 [⟨"A", "1", "x"⟩] ["A", "B"] [⟨"A", 0⟩, ⟨"B", 0⟩] ["B"] (by decide)

/-- C3: the stock policy — quantity text `">10"` yields 100, `"1"` yields 0,
anything else is parsed directly as an integer (a data-format failure when
the text is not a numeral makes the whole call fail), and every emitted
entry's stock is the policy value of some record (or the 0 of an unmatched
SKU). -/
theorem claim_C3 :
    stockOf ">10" = some 100 ∧
    stockOf "1" = some 0 ∧
    (∀ s : String, s ≠ ">10" → s ≠ "1" → stockOf s = pyInt s) ∧
    (∀ (w : Rec) (ws : List Rec) (skus : List String),
        w.kod ∈ skus → stockOf w.kolichestvo = none →
        create_stocks (w :: ws) skus = none) ∧
    (∀ (w : Rec) (ws : List Rec) (skus : List String) (v : Int)
        (out : List StockEntry) (rem : List String),
        w.kod ∈ skus → stockOf w.kolichestvo = some v →
        create_stocks (w :: ws) skus = some (out, rem) →
        out.head? = some ⟨w.kod, v⟩) ∧
    (∀ (ws : List Rec) (skus : List String) (out : List StockEntry) (rem : List String),
        create_stocks ws skus = some (out, rem) →
        ∀ e ∈ out, (∃ w ∈ ws, e.offer_id = w.kod ∧ stockOf w.kolichestvo = some e.stock)
          ∨ e.stock = 0) := by
  refine ⟨rfl, rfl, ?_, ?_, ?_, ?_⟩
  · intro s h1 h2
    unfold stockOf
    rw [if_neg h1, if_neg h2]
  · intro w ws skus hm hst
    have hl : createStocksLoop (w :: ws) skus = none := by
      simp only [createStocksLoop]
      rw [if_pos hm, hst]
    simp only [create_stocks, hl]
  · intro w ws skus v out rem hm hst h
    obtain ⟨st, hloop, hout⟩ := create_stocks_eq _ _ _ _ h
    simp only [createStocksLoop] at hloop
    rw [if_pos hm] at hloop
    split at hloop
    case h_1 heq => rw [hst] at heq; exact absurd heq (by simp)
    case h_2 v' heq =>
      rw [hst] at heq
      injection heq with hv
      subst hv
      split at hloop
      case h_1 => exact absurd hloop (by simp)
      case h_2 rest rem' hrec =>
        simp only [Option.some.injEq, Prod.mk.injEq] at hloop
        rw [hout, ← hloop.1]
        rfl
  · intro ws skus out rem h e he
    obtain ⟨st, hloop, hout⟩ := create_stocks_eq _ _ _ _ h
    rw [hout] at he
    rcases List.mem_append.mp he with he | he
    · exact Or.inl (csl_entry_sound ws skus st rem hloop e he)
    · obtain ⟨s, hs, hes⟩ := List.mem_map.mp he
      rw [← hes]
      exact Or.inr rfl

/-- Witness for C3 at concrete inputs. -/
theorem claim_C3_witness :
    stockOf "5" = pyInt "5" ∧
    create_stocks [⟨"A", "x", ""⟩] ["A"] = none ∧
    ([StockEntry.mk "A" 100, StockEntry.mk "B" 0] : List StockEntry).head?
      = some ⟨(Rec.mk "A" ">10" "").kod, 100⟩ ∧
    ((∃ w ∈ [Rec.mk "A" ">10" ""], (StockEntry.mk "A" 100).offer_id = w.kod ∧
        stockOf w.kolichestvo = some (StockEntry.mk "A" 100).stock) ∨
      (StockEntry.mk "A" 100).stock = 0) :=
  ⟨claim_C3.2.2.1 "5" (by decide) (by decide),
   claim_C3.2.2.2.1 ⟨"A", "x", ""⟩ [] ["A"] (by decide) (by decide),
   claim_C3.2.2.2.2.1 ⟨"A", ">10", ""⟩ [] ["A", "B"] 100
     [⟨"A", 100⟩, ⟨"B", 0⟩] ["B"] (by decide) (by decide) (by decide),
   claim_C3.2.2.2.2.2 [⟨"A", ">10", ""⟩] ["A", "B"] [⟨"A", 100⟩, ⟨"B", 0⟩] ["B"]
     (by decide) ⟨"A", 100⟩ (by decide)⟩

/-- C4 counterexample: with a duplicated input SKU list the output does not
contain every input SKU exactly once — `"A"` appears twice. -/
theorem claim_C4_cex :
    create_stocks ([] : List Rec) ["A", "A"]
        = some ([⟨"A", 0⟩, ⟨"A", 0⟩], ["A", "A"]) ∧
    ([StockEntry.mk "A" 0, StockEntry.mk "A" 0].map StockEntry.offer_id).count "A" ≠ 1 := by
  decide

/-- C4 as amended: the output SKUs are a permutation of the input SKU list —
each input SKU appears once per occurrence, hence exactly once when the list
is duplicate-free; every SKU with no matching record yields stock exactly 0;
and the output is the matched records in record-input order followed by the
unmatched SKUs in SKU-list order. -/
theorem claim_C4 :
    ∀ (ws : List Rec) (skus : List String) (out : List StockEntry) (rem : List String),
      create_stocks ws skus = some (out, rem) →
      List.Perm (out.map StockEntry.offer_id) skus ∧
      (skus.Nodup → ∀ s ∈ skus, (out.map StockEntry.offer_id).count s = 1) ∧
      (∀ s ∈ skus, (∀ w ∈ ws, w.kod ≠ s) →
        (⟨s, 0⟩ : StockEntry) ∈ out ∧ ∀ e ∈ out, e.offer_id = s → e.stock = 0) ∧
      (∃ matched, out = matched ++ rem.map (fun s => ⟨s, 0⟩) ∧
        List.Sublist (matched.map StockEntry.offer_id) (ws.map Rec.kod) ∧
        List.Sublist rem skus) := by
  intro ws skus out rem h
  obtain ⟨st, hloop, hout⟩ := create_stocks_eq ws skus out rem h
  have hmap : out.map StockEntry.offer_id = st.map StockEntry.offer_id ++ rem := by
    rw [hout, List.map_append, List.map_map]
    have hid : (StockEntry.offer_id ∘ fun s => StockEntry.mk s 0) = id := rfl
    rw [hid, List.map_id]
  have hperm : List.Perm (out.map StockEntry.offer_id) skus := by
    rw [hmap]
    exact csl_perm ws skus st rem hloop
  refine ⟨hperm, ?_, ?_, st, hout, csl_offer_sublist ws skus st rem hloop,
    csl_rem_sublist ws skus st rem hloop⟩
  · intro hnd s hs
    rw [hperm.count_eq s]
    exact List.count_eq_one_of_mem hnd hs
  · intro s hs hne
    constructor
    · have hrem : s ∈ rem := csl_mem_rem_of_unmatched ws skus st rem s hs hne hloop
      rw [hout]
      exact List.mem_append_right _ (List.mem_map.mpr ⟨s, hrem, rfl⟩)
    · intro e he hid
      rw [hout] at he
      rcases List.mem_append.mp he with he | he
      · obtain ⟨w', hw', heq, -⟩ := csl_entry_sound ws skus st rem hloop e he
        exact absurd (heq ▸ hid : w'.kod = s) (hne w' hw')
      · obtain ⟨s', hs', hes⟩ := List.mem_map.mp he
        rw [← hes]

/-- Witness for the amended C4 at a concrete call. -/
theorem claim_C4_witness :
    List.Perm ([StockEntry.mk "A" 100, StockEntry.mk "B" 0].map StockEntry.offer_id)
      ["A", "B"] ∧
    ([StockEntry.mk "A" 100, StockEntry.mk "B" 0].map StockEntry.offer_id).count "A" = 1 :=
  ⟨(claim_C4 [⟨"A", ">10", ""⟩] ["A", "B"] [⟨"A", 100⟩, ⟨"B", 0⟩] ["B"] (by decide)).1,
   (claim_C4 [⟨"A", ">10", ""⟩] ["A", "B"] [⟨"A", 100⟩, ⟨"B", 0⟩] ["B"] (by decide)).2.1
     (by decide) "A" (by decide)⟩

/-- C5: `price_conversion` truncates at the first `.` and strips every
non-digit from the remainder — the four quoted examples hold, and it is the
identity on digit-only strings. -/
theorem claim_C5 :
    price_conversion "123.45 USD" = "123" ∧
    price_conversion "a1b2c3" = "123" ∧
    price_conversion "5000.00" = "5000" ∧
    price_conversion "7000.50 RUB" = "7000" ∧
    (∀ s : String, s.data.all Char.isDigit = true → price_conversion s = s) :=
  ⟨by decide, by decide, by decide, by decide, price_conversion_digits⟩

/-- Witness for C5's idempotence clause on a concrete digit string. -/
theorem claim_C5_witness :
    ("4567" : String).data.all Char.isDigit = true ∧
    price_conversion "4567" = "4567" :=
  ⟨by decide, claim_C5.2.2.2.2 "4567" (by decide)⟩

/-- C6: for every chunk size `n > 0`, `divide` yields consecutive slices in
input order — the concatenation of the chunks is the input list, every chunk
except possibly the last has exactly `n` items, every chunk has between 1
and `n` items, the empty list yields no chunks, and
`divide [1..7] 3 = [[1,2,3],[4,5,6],[7]]`. -/
theorem claim_C6 :
    (∀ (α : Type) (lst : List α) (n : Nat), 0 < n →
        (divide lst n).flatten = lst ∧
        (∀ c ∈ (divide lst n).dropLast, c.length = n) ∧
        (∀ c ∈ divide lst n, 1 ≤ c.length ∧ c.length ≤ n)) ∧
    (∀ (α : Type) (n : Nat), divide ([] : List α) n = []) ∧
    divide [1, 2, 3, 4, 5, 6, 7] 3 = [[1, 2, 3], [4, 5, 6], [7]] :=
  ⟨fun _ lst n hn =>
      ⟨divide_flatten lst n hn, divide_dropLast lst n hn, divide_mem_length lst n hn⟩,
   fun _ n => divide_nil n, by decide⟩

/-- Witness for C6 at a concrete list and chunk size. -/
theorem claim_C6_witness :
    0 < 3 ∧ (divide [1, 2, 3, 4, 5, 6, 7] 3).flatten = [1, 2, 3, 4, 5, 6, 7] :=
  ⟨by decide, (claim_C6.1 Nat [1, 2, 3, 4, 5, 6, 7] 3 (by decide)).1⟩

/-- C7: the `get_offer_ids` loop terminates exactly when the accumulated item
count equals the server-reported total — if it returns, the stop condition
held (and the result is the SKUs accumulated up to that point); if the stop
condition never holds along the trace, no finite fuel suffices (the
`while True:` loop never exits — no iteration cap or cursor-stall
safeguard); and whenever the stop condition holds at some iteration, some
finite fuel returns a result. -/
theorem claim_C7 :
    ∀ srv : String → ProdResp,
      (∀ (fuel : Nat) (out : List String), get_offer_ids srv fuel = some out →
        ∃ k, stopAt srv k ∧
          out = ((traceState srv k).2 ++ (srv (traceState srv k).1).items).map
            Product.offer_id) ∧
      ((∀ k, ¬ stopAt srv k) → ∀ fuel, get_offer_ids srv fuel = none) ∧
      (∀ k, stopAt srv k → ∃ fuel out, get_offer_ids srv fuel = some out) := by
  intro srv
  refine ⟨?_, ?_, ?_⟩
  · intro fuel out h
    exact getOfferIds_stop_of_some srv fuel 0 out h
  · intro h fuel
    exact getOfferIds_none_of_no_stop srv h fuel 0
  · intro k h
    obtain ⟨out, hout⟩ := getOfferIds_some_of_stop srv k 0 (by simpa using h)
    exact ⟨k + 1, out, hout⟩

/-- Witness for C7: a one-page server stops immediately; a server that
reports total 1 but sends no items never satisfies the stop condition and
the loop never returns. -/
theorem claim_C7_witness :
    (∃ k, stopAt (fun _ => ProdResp.mk [Product.mk "x"] 1 "c") k ∧
        ["x"] = ((traceState (fun _ => ProdResp.mk [Product.mk "x"] 1 "c") k).2
            ++ ((fun _ => ProdResp.mk [Product.mk "x"] 1 "c")
                (traceState (fun _ => ProdResp.mk [Product.mk "x"] 1 "c") k).1).items).map
              Product.offer_id) ∧
    (∀ fuel, get_offer_ids (fun _ => ProdResp.mk [] 1 "") fuel = none) ∧
    (∃ fuel out, get_offer_ids (fun _ => ProdResp.mk [Product.mk "x"] 1 "c") fuel
        = some out) := by
  refine ⟨?_, ?_, ?_⟩
  · exact (claim_C7 _).1 1 ["x"] (by decide)
  · refine (claim_C7 _).2.1 ?_
    intro k
    have hts : ∀ j, traceState (fun _ => ProdResp.mk [] 1 "") j = ("", []) := by
      intro j
      induction j with
      | zero => rfl
      | succ j ih => simp [traceState, ih]
    simp [stopAt, hts k]
  · exact (claim_C7 _).2.2 0 (by decide)

/-- C8: the top-level run catches exactly the three exception cases (read
timeout, connection error, any other exception), printing one line each and
returning normally — body failures never propagate out of `main` — while a
missing `SELLER_TOKEN` or `CLIENT_ID` raises before and outside this
handling. -/
theorem claim_C8 :
    (∀ (t c : String) (w : World), ∃ r, main (some t) (some c) w = Except.ok r) ∧
    (∀ (c : Option String) (w : World),
        main none c w = Except.error EnvError.missingSellerToken) ∧
    (∀ (t : String) (w : World),
        main (some t) none w = Except.error EnvError.missingClientId) ∧
    (∀ (t c : String) (w : World), (mainBody w).2 = some PyExc.readTimeout →
        main (some t) (some c) w
          = Except.ok ((mainBody w).1, ["Превышено время ожидания..."])) ∧
    (∀ (t c : String) (w : World) (m : String),
        (mainBody w).2 = some (PyExc.connectionError m) →
        main (some t) (some c) w = Except.ok ((mainBody w).1, [m ++ " Ошибка соединения"])) ∧
    (∀ (t c : String) (w : World) (m : String),
        (mainBody w).2 = some (PyExc.other m) →
        main (some t) (some c) w = Except.ok ((mainBody w).1, [m ++ " ERROR_2"])) := by
  refine ⟨?_, ?_, ?_, ?_, ?_, ?_⟩
  · intro t c w
    exact ⟨((mainBody w).1, handle (mainBody w).2), rfl⟩
  · intro c w
    rfl
  · intro t w
    rfl
  · intro t c w h
    simp only [main, h, handle]
  · intro t c w m h
    simp only [main, h, handle]
  · intro t c w m h
    simp only [main, h, handle]

/-- Witness for C8 at concrete environments and worlds. -/
theorem claim_C8_witness :
    (∃ r, main (some "t") (some "c")
        ⟨Except.ok [], Except.ok [], fun _ => none, fun _ => none⟩ = Except.ok r) ∧
    main none (some "c") ⟨Except.ok [], Except.ok [], fun _ => none, fun _ => none⟩
      = Except.error EnvError.missingSellerToken ∧
    main (some "t") none ⟨Except.ok [], Except.ok [], fun _ => none, fun _ => none⟩
      = Except.error EnvError.missingClientId ∧
    main (some "t") (some "c")
        ⟨Except.error PyExc.readTimeout, Except.ok [], fun _ => none, fun _ => none⟩
      = Except.ok ([Effect.fetchSkus], ["Превышено время ожидания..."]) :=
  ⟨claim_C8.1 "t" "c" _,
   claim_C8.2.1 (some "c") _,
   claim_C8.2.2.1 "t" _,
   claim_C8.2.2.2.1 "t" "c"
     ⟨Except.error PyExc.readTimeout, Except.ok [], fun _ => none, fun _ => none⟩
     (by decide)⟩

/-- C9 counterexample: the run's first effect is the SKU-list fetch, not the
remnants fetch — `main` calls `get_offer_ids` before `download_stock`, the
opposite of the claimed order. -/
theorem claim_C9_cex :
    (mainBody ⟨Except.ok ["A"], Except.ok [], fun _ => none, fun _ => none⟩).1.head?
      = some Effect.fetchSkus ∧
    (mainBody ⟨Except.ok ["A"], Except.ok [], fun _ => none, fun _ => none⟩).1.head?
      ≠ some Effect.fetchRemnants := by decide

/-- C9 as amended: the run performs fetch SKU list, then fetch remnants,
then stock batches of at most 100, then price batches of at most 900 — the
performed effects are always a prefix of this planned sequence (any
exception aborts all remaining steps), and equal it when no exception is
raised; the programmatic upload path chunks prices by 1000. -/
theorem claim_C9 :
    (∀ w : World, ∃ t, (mainBody w).1 ++ t = mainPlannedEffects w) ∧
    (∀ w : World, (mainBody w).2 = none → (mainBody w).1 = mainPlannedEffects w) ∧
    (∀ (w : World) (b : List StockEntry),
        Effect.uploadStockBatch b ∈ (mainBody w).1 → b.length ≤ 100) ∧
    (∀ (w : World) (b : List PriceEntry),
        Effect.uploadPriceBatch b ∈ (mainBody w).1 → b.length ≤ 900) ∧
    (∀ (ws : List Rec) (skus : List String),
        (uploadPricesCalls ws skus).flatten = create_prices ws skus ∧
        ∀ b ∈ uploadPricesCalls ws skus, b.length ≤ 1000) :=
  ⟨mainBody_trace_isPre, mainBody_trace_of_ok, mainBody_stock_le, mainBody_price_le,
   fun ws skus =>
     ⟨divide_flatten _ 1000 (by omega),
      fun b hb => (divide_mem_length _ 1000 (by omega) b hb).2⟩⟩

/-- Witness for the amended C9 at concrete runs. -/
theorem claim_C9_witness :
    (∃ t, (mainBody ⟨Except.ok ["A"], Except.ok [], fun _ => none, fun _ => none⟩).1 ++ t
        = mainPlannedEffects ⟨Except.ok ["A"], Except.ok [], fun _ => none, fun _ => none⟩) ∧
    (mainBody ⟨Except.ok ["A"], Except.ok [], fun _ => none, fun _ => none⟩).1
      = mainPlannedEffects ⟨Except.ok ["A"], Except.ok [], fun _ => none, fun _ => none⟩ ∧
    ([StockEntry.mk "A" 0] : List StockEntry).length ≤ 100 ∧
    ([PriceEntry.mk "UNKNOWN" "RUB" "123" "0" "99"] : List PriceEntry).length ≤ 900 ∧
    (uploadPricesCalls [⟨"123", "", "5000.00"⟩] ["123"]).flatten
      = create_prices [⟨"123", "", "5000.00"⟩] ["123"] :=
  ⟨claim_C9.1 _,
   claim_C9.2.1 _ (by decide),
   claim_C9.2.2.1 ⟨Except.ok ["A"], Except.ok [], fun _ => none, fun _ => none⟩
     [⟨"A", 0⟩] (by decide),
   claim_C9.2.2.2.1
     ⟨Except.ok ["123", "123"], Except.ok [⟨"123", "5", "99"⟩], fun _ => none, fun _ => none⟩
     [⟨"UNKNOWN", "RUB", "123", "0", "99"⟩] (by decide),
   (claim_C9.2.2.2.2 [⟨"123", "", "5000.00"⟩] ["123"]).1⟩

/-- C10: `create_prices` emits one price update per record whose SKU is in
the list (membership test only, no removal, so duplicate records all pass
through), each update carrying `old_price = "0"`, `currency_code = "RUB"`,
`auto_action_enabled = "UNKNOWN"`, and the truncate-then-strip normalised
price. -/
theorem claim_C10 :
    (∀ (ws : List Rec) (skus : List String),
        create_prices ws skus =
          (ws.filter (fun w => decide (w.kod ∈ skus))).map
            (fun w => ⟨"UNKNOWN", "RUB", w.kod, "0", price_conversion w.tsena⟩)) ∧
    (∀ (ws : List Rec) (skus : List String) (e : PriceEntry),
        e ∈ create_prices ws skus →
        e.old_price = "0" ∧ e.currency_code = "RUB" ∧ e.auto_action_enabled = "UNKNOWN" ∧
          ∃ w ∈ ws, w.kod ∈ skus ∧ e.offer_id = w.kod ∧ e.price = price_conversion w.tsena) ∧
    create_prices [⟨"123", "", "5000.00"⟩, ⟨"124", "", "7000.50"⟩, ⟨"125", "", "1200.00"⟩]
        ["123", "124"]
      = [⟨"UNKNOWN", "RUB", "123", "0", "5000"⟩, ⟨"UNKNOWN", "RUB", "124", "0", "7000"⟩] ∧
    (create_prices [⟨"123", "", "10"⟩, ⟨"123", "", "20"⟩] ["123"]).length = 2 :=
  ⟨create_prices_eq, create_prices_mem, by decide, by decide⟩

/-- Witness for C10's membership clause at a concrete entry. -/
theorem claim_C10_witness :
    (PriceEntry.mk "UNKNOWN" "RUB" "123" "0" "5000").old_price = "0" ∧
    (PriceEntry.mk "UNKNOWN" "RUB" "123" "0" "5000").currency_code = "RUB" ∧
    (PriceEntry.mk "UNKNOWN" "RUB" "123" "0" "5000").auto_action_enabled = "UNKNOWN" ∧
    ∃ w ∈ [Rec.mk "123" "" "5000.00"], w.kod ∈ ["123"] ∧
      (PriceEntry.mk "UNKNOWN" "RUB" "123" "0" "5000").offer_id = w.kod ∧
      (PriceEntry.mk "UNKNOWN" "RUB" "123" "0" "5000").price = price_conversion w.tsena :=
  claim_C10.2.1 [⟨"123", "", "5000.00"⟩] ["123"] ⟨"UNKNOWN", "RUB", "123", "0", "5000"⟩
    (by decide)

end Seller
